import Mathlib

/-!
Verification of the compile-time sieve of Eratosthenes in
`src/eratosthenes.cpp` (namespaces `rhc` and `rhc::primes`).

The C++ code is shallowly embedded as executable Lean definitions:

* `bit_array` models `rhc::bit_array<Size>`: a packed bit container whose
  backing storage is a list of bytes (natural numbers; every byte value
  stays below 256 because only single bits below offset 8 are ever OR-ed
  in, so no truncation is needed).
* `bit_array.ofFlags` models the `initializer_list<bool>` constructor,
  `bit_array.get` models `operator[]`.  `operator[]` performs no bounds
  check; reading a byte outside the backing storage is undefined
  behaviour in C++ and is modelled as `none`, while reads inside the
  storage (including the padding bits between `Size` and
  `CHAR_BIT * bytesFor Size`) return the stored bit.
* `to_index`, `to_number`, `get_factor_table`, `merge_factors`,
  `merged_factor_table`, `check` and `is_prime` model the functions of
  the same names in `rhc::primes`.  The template recursion of
  `merged_factor_table<Size, MaxFactor, PresentFactor>` steps the factor
  down by 2 until the specialisation at factor 3; for starting factors
  that are even or below 3 the recursion never reaches the base case
  (the template instantiation does not terminate), which is modelled by
  `none`.  The `MaxFactor` template parameter is dead (only used in a
  commented-out assertion) and is dropped.  The unused integral
  constructor of `bit_array` is not modelled; the sieve never calls it.
* Machine integers (`uintmax_t`, `size_t`) are modelled as `ℕ`; the
  subtraction in `to_index` only ever runs on arguments `≥ 3` in the
  program, so unsigned wrap-around never occurs on any reachable input.
-/

/-- Bits per byte, the value of `CHAR_BIT` on the targeted platforms. -/
def CHAR_BIT : ℕ := 8

/-- Number of backing bytes of `rhc::bit_array<bits>`:
`detail::ceil<size_t>(float(bits) / CHAR_BIT)`, i.e. the ceiling of
`bits / 8` (exact for every size in use; the `float` detour of the
source is lossless below `2^24`). -/
def bytesFor (bits : ℕ) : ℕ :=
  if bits % CHAR_BIT = 0 then bits / CHAR_BIT else bits / CHAR_BIT + 1

/-- `rhc::bit_array::index_to_byte`: logical index to byte map. -/
def index_to_byte (index : ℕ) : ℕ := index / CHAR_BIT

/-- `rhc::bit_array::index_to_offset`: offset within one byte. -/
def index_to_offset (index : ℕ) : ℕ := index - CHAR_BIT * (index / CHAR_BIT)

/-- `rhc::bit_array<Size>`: the `Size` template argument together with the
packed byte storage `std::byte storage[bytes]`. -/
structure bit_array where
  bits : ℕ
  storage : List ℕ
deriving DecidableEq

/-- One step of the `initializer_list<bool>` constructor body:
`storage[index_to_byte(index)] |= std::byte(bit << index_to_offset(index))`. -/
def orBit (st : List ℕ) (index : ℕ) (b : Bool) : List ℕ :=
  st.set (index_to_byte index)
    ((st.getD (index_to_byte index) 0) ||| ((cond b 1 0) <<< index_to_offset index))

/-- The loop of the `initializer_list<bool>` constructor: starting at
`index`, OR each flag of the list into the storage. -/
def write_flags (st : List ℕ) (index : ℕ) : List Bool → List ℕ
  | [] => st
  | b :: rest => write_flags (orBit st index b) (index + 1) rest

/-- `rhc::bit_array<Size>{list}`: zero-initialised storage of
`bytesFor Size` bytes, then the constructor loop from index 0. -/
def bit_array.ofFlags (Size : ℕ) (flags : List Bool) : bit_array :=
  ⟨Size, write_flags (List.replicate (bytesFor Size) 0) 0 flags⟩

/-- `rhc::bit_array::operator[]`:
`(storage[index_to_byte(index)] >> index_to_offset(index)) & 0x1`.
A byte access outside the backing storage is undefined behaviour in the
source and yields `none` here; there is no check against `bits`. -/
def bit_array.get (a : bit_array) (index : ℕ) : Option Bool :=
  (a.storage[index_to_byte index]?).map
    (fun b => ((b >>> index_to_offset index) &&& 1) == 1)

/-- `rhc::primes::to_index`: `(number - 3) / 2`. -/
def to_index (number : ℕ) : ℕ := (number - 3) / 2

/-- `rhc::primes::to_number`: `idx * 2 + 3`. -/
def to_number (idx : ℕ) : ℕ := idx * 2 + 3

/-- `rhc::primes::get_factor_table<Size, Factor>`: the table whose bit `i`
is `to_number(i) % Factor == 0 && to_number(i) > Factor`, built through
the `initializer_list` constructor over `make_index_sequence<Size>`. -/
def get_factor_table (Size Factor : ℕ) : bit_array :=
  bit_array.ofFlags Size
    ((List.range Size).map fun i => decide (to_number i % Factor = 0 ∧ Factor < to_number i))

/-- `rhc::primes::merge_factors<Size>`: the table whose bit `i` is
`lhs[i] | rhs[i]`, built over `make_index_sequence<Size>`.  Both reads
are in range whenever the arguments are genuine `bit_array<Size>`
values, so the `getD false` default is never consulted there. -/
def merge_factors (Size : ℕ) (lhs rhs : bit_array) : bit_array :=
  bit_array.ofFlags Size
    ((List.range Size).map fun i => ((lhs.get i).getD false || (rhs.get i).getD false))

/-- `rhc::primes::merged_factor_table<Size, MaxFactor, PresentFactor>::get()`
as a function of `Size` and `PresentFactor` (the `MaxFactor` parameter is
unused in the source).  The specialisation at `PresentFactor = 3`
returns factor 3's table; the generic case recurses at
`PresentFactor - 2`, skips the present factor when its own bit is
already set in the preceding composites, and otherwise merges the
present factor's table.  A start at 0, 1 or 2 never reaches the base
case (the template recursion does not terminate), modelled by `none`. -/
def merged_factor_table (Size : ℕ) : ℕ → Option bit_array
  | 0 => none
  | 1 => none
  | 2 => none
  | 3 => some (get_factor_table Size 3)
  | (f + 4) =>
    match merged_factor_table Size (f + 2) with
    | none => none
    | some preceding_composites =>
      if (preceding_composites.get (to_index (f + 4))).getD false then
        some preceding_composites
      else
        some (merge_factors Size (get_factor_table Size (f + 4)) preceding_composites)

/-- Spec variant for the refinement claim (spec §8, skip-optimization
correctness): the builder with the skip-known-composite-factors step of
§4.2 step 3.a disabled, merging every factor's table unconditionally. -/
def merged_factor_table_noskip (Size : ℕ) : ℕ → Option bit_array
  | 0 => none
  | 1 => none
  | 2 => none
  | 3 => some (get_factor_table Size 3)
  | (f + 4) =>
    match merged_factor_table_noskip Size (f + 2) with
    | none => none
    | some preceding_composites =>
      some (merge_factors Size (get_factor_table Size (f + 4)) preceding_composites)

/-- `rhc::primes::check<MaxNumber>(num)`: `Size = MaxNumber / 2`, the
fast-path answers for 0, 1, 2 and even numbers, and otherwise the
negated table bit at `to_index(num)`.  The table is a compile-time
constant: when its construction fails (bound even or below 3) the
whole specialisation fails, so every query is `none`. -/
def check (MaxNumber num : ℕ) : Option Bool :=
  match merged_factor_table (MaxNumber / 2) MaxNumber with
  | none => none
  | some composites =>
    if num = 0 ∨ num = 1 then some false
    else if num = 2 then some true
    else if num % 2 = 0 then some false
    else (composites.get (to_index num)).map (fun b => !b)

/-- `is_prime(num)`: `rhc::primes::check<1001>(num)`. -/
def is_prime (num : ℕ) : Option Bool := check 1001 num

/-- Reading one bit of a raw byte list, phrased through `Nat.testBit`;
proved below to agree with `bit_array.get`. -/
def bitRead (st : List ℕ) (k : ℕ) : Option Bool :=
  (st[index_to_byte k]?).map fun b => b.testBit (index_to_offset k)

/-- Abstract marking predicate used by the proofs: bit `i` should be set
after processing all odd factors `g ≤ f` exactly when `to_number i` is a
strict multiple of such a factor `g ≥ 3`. -/
def markedb (f i : ℕ) : Bool :=
  (List.range (f + 1)).any fun g =>
    decide (g % 2 = 1 ∧ 3 ≤ g ∧ to_number i % g = 0 ∧ g < to_number i)

/-- The flag list of the abstract marking predicate over the first `Size`
indices. -/
def markedFlags (Size f : ℕ) : List Bool :=
  (List.range Size).map fun i => markedb f i

/-! ## Bit-level lemmas about the packed storage -/

theorem index_to_offset_eq (j : ℕ) : index_to_offset j = j % CHAR_BIT := by
  unfold index_to_offset CHAR_BIT
  omega

theorem read_bit_eq_testBit (b off : ℕ) : (((b >>> off) &&& 1) == 1) = b.testBit off := by
  rw [Nat.testBit_to_div_mod, Nat.and_one_is_mod, Nat.shiftRight_eq_div_pow]
  rcases Nat.mod_two_eq_zero_or_one (b / 2 ^ off) with h | h <;> simp [h]

theorem bit_array.get_eq_bitRead (a : bit_array) (j : ℕ) : a.get j = bitRead a.storage j := by
  unfold bit_array.get bitRead
  congr 1
  funext b
  exact read_bit_eq_testBit b (index_to_offset j)

theorem length_orBit (st : List ℕ) (j : ℕ) (b : Bool) : (orBit st j b).length = st.length := by
  simp [orBit]

theorem bitRead_orBit_ne (st : List ℕ) (j k : ℕ) (b : Bool) (hne : k ≠ j) :
    bitRead (orBit st j b) k = bitRead st k := by
  unfold bitRead orBit
  rcases eq_or_ne (index_to_byte k) (index_to_byte j) with hb | hb
  · rw [hb]
    rcases Nat.lt_or_ge (index_to_byte j) st.length with hlen | hlen
    · rw [List.getElem?_set_self hlen, List.getElem?_eq_getElem hlen]
      simp only [Option.map_some']
      congr 1
      have hoff : index_to_offset k ≠ index_to_offset j := by
        rw [index_to_offset_eq, index_to_offset_eq]
        unfold index_to_byte CHAR_BIT at hb
        unfold CHAR_BIT
        omega
      rw [Nat.testBit_lor]
      have hmask : ((cond b 1 0) <<< index_to_offset j).testBit (index_to_offset k) = false := by
        cases b
        · simp [Nat.zero_shiftLeft, Nat.zero_testBit]
        · rw [cond_true, Nat.shiftLeft_eq, one_mul]
          exact Nat.testBit_two_pow_of_ne (Ne.symm hoff)
      rw [hmask, Bool.or_false]
      rw [List.getD_eq_getElem st 0 hlen]
    · rw [List.getElem?_eq_none (by simpa using hlen), List.getElem?_eq_none hlen]
  · rw [List.getElem?_set_ne (Ne.symm hb)]

theorem bitRead_orBit_self (st : List ℕ) (j : ℕ) (b : Bool) :
    bitRead (orBit st j b) j = (bitRead st j).map (fun old => old || b) := by
  unfold bitRead orBit
  rcases Nat.lt_or_ge (index_to_byte j) st.length with hlen | hlen
  · rw [List.getElem?_set_self hlen, List.getElem?_eq_getElem hlen]
    simp only [Option.map_some']
    congr 1
    rw [Nat.testBit_lor, List.getD_eq_getElem st 0 hlen]
    congr 1
    cases b
    · simp [Nat.zero_shiftLeft, Nat.zero_testBit]
    · rw [cond_true, Nat.shiftLeft_eq, one_mul]
      exact Nat.testBit_two_pow_self
  · rw [List.getElem?_eq_none (by simpa using hlen), List.getElem?_eq_none hlen]
    rfl

theorem length_write_flags : ∀ (flags : List Bool) (st : List ℕ) (j : ℕ),
    (write_flags st j flags).length = st.length
  | [], _, _ => rfl
  | b :: rest, st, j => by
    rw [write_flags, length_write_flags rest, length_orBit]

theorem bitRead_write_flags_lt : ∀ (flags : List Bool) (st : List ℕ) (j k : ℕ), k < j →
    bitRead (write_flags st j flags) k = bitRead st k
  | [], _, _, _, _ => rfl
  | b :: rest, st, j, k, hk => by
    rw [write_flags, bitRead_write_flags_lt rest _ _ _ (by omega),
      bitRead_orBit_ne _ _ _ _ (by omega)]

theorem bitRead_write_flags_ge : ∀ (flags : List Bool) (st : List ℕ) (j k : ℕ),
    j + flags.length ≤ k → bitRead (write_flags st j flags) k = bitRead st k
  | [], _, _, _, _ => rfl
  | b :: rest, st, j, k, hk => by
    rw [List.length_cons] at hk
    rw [write_flags, bitRead_write_flags_ge rest _ _ _ (by omega),
      bitRead_orBit_ne _ _ _ _ (by omega)]

theorem bitRead_write_flags_in : ∀ (flags : List Bool) (st : List ℕ) (j k : ℕ),
    j ≤ k → k < j + flags.length →
    bitRead (write_flags st j flags) k = (bitRead st k).map (fun old => old || flags.getD (k - j) false)
  | [], _, _, _, _, h2 => by simp at h2; omega
  | b :: rest, st, j, k, h1, h2 => by
    rcases eq_or_lt_of_le h1 with rfl | hlt
    · rw [write_flags, bitRead_write_flags_lt rest _ _ _ (by omega), bitRead_orBit_self]
      simp
    · rw [List.length_cons] at h2
      rw [write_flags, bitRead_write_flags_in rest _ _ _ (by omega) (by omega),
        bitRead_orBit_ne _ _ _ _ (by omega)]
      have hidx : k - j = (k - (j + 1)) + 1 := by omega
      rw [hidx, List.getD_cons_succ]

theorem bitRead_replicate_zero (m k : ℕ) :
    bitRead (List.replicate m 0) k = if index_to_byte k < m then some false else none := by
  unfold bitRead
  rw [List.getElem?_replicate]
  by_cases h : index_to_byte k < m
  · rw [if_pos h, if_pos h, Option.map_some', Nat.zero_testBit]
  · rw [if_neg h, if_neg h, Option.map_none']

/-! ## Reading back a constructed `bit_array` -/

theorem byte_lt_of_lt_size {Size j : ℕ} (h : j < Size) : index_to_byte j < bytesFor Size := by
  unfold index_to_byte bytesFor CHAR_BIT
  split <;> omega

theorem ofFlags_storage_length (Size : ℕ) (flags : List Bool) :
    (bit_array.ofFlags Size flags).storage.length = bytesFor Size := by
  show (write_flags _ 0 flags).length = _
  rw [length_write_flags, List.length_replicate]

theorem ofFlags_get_lt (Size : ℕ) (flags : List Bool) (j : ℕ) (hj : j < Size)
    (hlen : j < flags.length) :
    (bit_array.ofFlags Size flags).get j = some (flags.getD j false) := by
  rw [bit_array.get_eq_bitRead]
  show bitRead (write_flags (List.replicate (bytesFor Size) 0) 0 flags) j = _
  rw [bitRead_write_flags_in flags _ 0 j (Nat.zero_le _) (by omega), bitRead_replicate_zero,
    if_pos (byte_lt_of_lt_size hj)]
  simp

theorem ofFlags_get_padding (Size : ℕ) (flags : List Bool) (j : ℕ)
    (hlen : flags.length ≤ j) (hj : index_to_byte j < bytesFor Size) :
    (bit_array.ofFlags Size flags).get j = some false := by
  rw [bit_array.get_eq_bitRead]
  show bitRead (write_flags (List.replicate (bytesFor Size) 0) 0 flags) j = _
  rw [bitRead_write_flags_ge flags _ 0 j (by omega), bitRead_replicate_zero, if_pos hj]

theorem ofFlags_get_none (Size : ℕ) (flags : List Bool) (j : ℕ)
    (hj : bytesFor Size ≤ index_to_byte j) :
    (bit_array.ofFlags Size flags).get j = none := by
  rw [bit_array.get_eq_bitRead]
  unfold bitRead
  rw [List.getElem?_eq_none (by rw [ofFlags_storage_length]; exact hj), Option.map_none']

theorem ofFlags_get_true (Size : ℕ) (flags : List Bool) (j : ℕ) (hlen : flags.length = Size)
    (h : (bit_array.ofFlags Size flags).get j = some true) :
    j < Size ∧ flags.getD j false = true := by
  rcases Nat.lt_or_ge j Size with hj | hj
  · rw [ofFlags_get_lt Size flags j hj (by omega)] at h
    exact ⟨hj, Option.some.inj h⟩
  · rcases Nat.lt_or_ge (index_to_byte j) (bytesFor Size) with hb | hb
    · rw [ofFlags_get_padding Size flags j (by omega) hb] at h
      simp at h
    · rw [ofFlags_get_none Size flags j hb] at h
      simp at h

theorem getD_false_true {o : Option Bool} (h : o.getD false = true) : o = some true := by
  cases o <;> simp_all

/-! ## The per-factor and merged tables, read entrywise -/

theorem map_range_getD (Size j : ℕ) (f : ℕ → Bool) (hj : j < Size) :
    ((List.range Size).map f).getD j false = f j := by
  rw [List.getD_eq_getElem _ _ (by simpa using hj), List.getElem_map, List.getElem_range]

theorem get_factor_table_get (Size Factor j : ℕ) (hj : j < Size) :
    (get_factor_table Size Factor).get j =
      some (decide (to_number j % Factor = 0 ∧ Factor < to_number j)) := by
  unfold get_factor_table
  rw [ofFlags_get_lt _ _ _ hj (by simpa using hj), map_range_getD _ _ _ hj]

theorem merge_factors_get (Size j : ℕ) (lhs rhs : bit_array) (hj : j < Size) :
    (merge_factors Size lhs rhs).get j =
      some ((lhs.get j).getD false || (rhs.get j).getD false) := by
  unfold merge_factors
  rw [ofFlags_get_lt _ _ _ hj (by simpa using hj), map_range_getD _ _ _ hj]

/-! ## Index maps -/

theorem to_index_to_number (i : ℕ) : to_index (to_number i) = i := by
  unfold to_index to_number
  omega

theorem to_number_to_index {n : ℕ} (h2 : n % 2 = 1) (h3 : 3 ≤ n) : to_number (to_index n) = n := by
  unfold to_number to_index
  omega

/-! ## The abstract marking predicate -/

theorem markedFlags_length (Size f : ℕ) : (markedFlags Size f).length = Size := by
  simp [markedFlags]

theorem markedFlags_getD (Size f j : ℕ) (hj : j < Size) :
    (markedFlags Size f).getD j false = markedb f j := by
  unfold markedFlags
  exact map_range_getD Size j _ hj

theorem markedb_iff (f i : ℕ) :
    markedb f i = true ↔
      ∃ g, g ≤ f ∧ g % 2 = 1 ∧ 3 ≤ g ∧ to_number i % g = 0 ∧ g < to_number i := by
  unfold markedb
  rw [List.any_eq_true]
  constructor
  · rintro ⟨g, hg, hp⟩
    rw [List.mem_range] at hg
    rw [decide_eq_true_eq] at hp
    exact ⟨g, by omega, hp⟩
  · rintro ⟨g, hg, hp⟩
    exact ⟨g, List.mem_range.2 (by omega), by rw [decide_eq_true_eq]; exact hp⟩

theorem markedb_three (i : ℕ) :
    markedb 3 i = decide (to_number i % 3 = 0 ∧ 3 < to_number i) := by
  rw [Bool.eq_iff_iff, markedb_iff, decide_eq_true_eq]
  constructor
  · rintro ⟨g, hg, hodd, h3, hmod, hlt⟩
    have hg3 : g = 3 := by omega
    subst hg3
    exact ⟨hmod, hlt⟩
  · rintro ⟨hmod, hlt⟩
    exact ⟨3, le_refl 3, by norm_num, le_refl 3, hmod, hlt⟩

theorem markedb_step (f i : ℕ) (hf : (f + 4) % 2 = 1) :
    markedb (f + 4) i =
      (decide (to_number i % (f + 4) = 0 ∧ (f + 4) < to_number i) || markedb (f + 2) i) := by
  rw [Bool.eq_iff_iff, markedb_iff, Bool.or_eq_true, decide_eq_true_eq, markedb_iff]
  constructor
  · rintro ⟨g, hg, hodd, h3, hmod, hlt⟩
    rcases eq_or_ne g (f + 4) with rfl | hne
    · exact Or.inl ⟨hmod, hlt⟩
    · exact Or.inr ⟨g, by omega, hodd, h3, hmod, hlt⟩
  · rintro (⟨hmod, hlt⟩ | ⟨g, hg, hodd, h3, hmod, hlt⟩)
    · exact ⟨f + 4, le_refl _, hf, by omega, hmod, hlt⟩
    · exact ⟨g, by omega, hodd, h3, hmod, hlt⟩

/-! ## Characterisation of the factor recursion -/

theorem markedFlags_step (Size f : ℕ) (hodd : (f + 4) % 2 = 1) :
    markedFlags Size (f + 4) = (List.range Size).map fun i =>
      (decide (to_number i % (f + 4) = 0 ∧ (f + 4) < to_number i) || markedb (f + 2) i) := by
  unfold markedFlags
  exact List.map_congr_left fun i _ => markedb_step f i hodd

theorem merge_marked (Size f : ℕ) (hodd : (f + 4) % 2 = 1) :
    merge_factors Size (get_factor_table Size (f + 4))
        (bit_array.ofFlags Size (markedFlags Size (f + 2)))
      = bit_array.ofFlags Size (markedFlags Size (f + 4)) := by
  unfold merge_factors
  rw [markedFlags_step Size f hodd]
  congr 1
  apply List.map_congr_left
  intro i hi
  rw [List.mem_range] at hi
  rw [get_factor_table_get Size (f + 4) i hi,
    ofFlags_get_lt Size _ i hi (by rw [markedFlags_length]; exact hi),
    markedFlags_getD Size (f + 2) i hi, Option.getD_some, Option.getD_some]

theorem markedFlags_skip (Size f : ℕ) (hodd : (f + 4) % 2 = 1)
    (hcomp : markedb (f + 2) (to_index (f + 4)) = true) :
    markedFlags Size (f + 4) = markedFlags Size (f + 2) := by
  rw [markedFlags_step Size f hodd]
  unfold markedFlags
  apply List.map_congr_left
  intro i _
  obtain ⟨g, hgle, hgodd, hg3, hgmod, hglt⟩ := (markedb_iff (f + 2) (to_index (f + 4))).1 hcomp
  rw [to_number_to_index hodd (by omega)] at hgmod hglt
  cases hd : decide (to_number i % (f + 4) = 0 ∧ (f + 4) < to_number i)
  · rw [Bool.false_or]
  · rw [Bool.true_or]
    obtain ⟨hdmod, hdlt⟩ := of_decide_eq_true hd
    symm
    rw [markedb_iff]
    refine ⟨g, hgle, hgodd, hg3, ?_, by omega⟩
    have hgf : g ∣ f + 4 := Nat.dvd_of_mod_eq_zero hgmod
    have hfn : (f + 4) ∣ to_number i := Nat.dvd_of_mod_eq_zero hdmod
    exact (Nat.dvd_iff_mod_eq_zero).1 (hgf.trans hfn)

theorem merged_step (Size f : ℕ) (A : bit_array) (h : merged_factor_table Size (f + 2) = some A) :
    merged_factor_table Size (f + 4) =
      if (A.get (to_index (f + 4))).getD false then some A
      else some (merge_factors Size (get_factor_table Size (f + 4)) A) := by
  rw [merged_factor_table, h]

theorem noskip_step (Size f : ℕ) (A : bit_array) (h : merged_factor_table_noskip Size (f + 2) = some A) :
    merged_factor_table_noskip Size (f + 4) =
      some (merge_factors Size (get_factor_table Size (f + 4)) A) := by
  rw [merged_factor_table_noskip, h]

theorem merged_eq (Size : ℕ) : ∀ f, f % 2 = 1 → 3 ≤ f →
    merged_factor_table Size f = some (bit_array.ofFlags Size (markedFlags Size f))
  | 0, h, _ => by omega
  | 1, _, h => by omega
  | 2, h, _ => by omega
  | 3, _, _ => by
    show some (get_factor_table Size 3) = _
    unfold get_factor_table
    congr 2
    unfold markedFlags
    exact List.map_congr_left fun i _ => (markedb_three i).symm
  | (f + 4), hodd, _ => by
    have ih := merged_eq Size (f + 2) (by omega) (by omega)
    rw [merged_step Size f _ ih]
    by_cases hbit :
      ((bit_array.ofFlags Size (markedFlags Size (f + 2))).get (to_index (f + 4))).getD false = true
    · rw [if_pos hbit]
      obtain ⟨hlt, hmark⟩ :=
        ofFlags_get_true Size _ _ (markedFlags_length Size (f + 2)) (getD_false_true hbit)
      rw [markedFlags_getD Size (f + 2) _ hlt] at hmark
      rw [markedFlags_skip Size f hodd hmark]
    · rw [if_neg hbit, merge_marked Size f hodd]

theorem noskip_eq (Size : ℕ) : ∀ f, f % 2 = 1 → 3 ≤ f →
    merged_factor_table_noskip Size f = some (bit_array.ofFlags Size (markedFlags Size f))
  | 0, h, _ => by omega
  | 1, _, h => by omega
  | 2, h, _ => by omega
  | 3, _, _ => by
    show some (get_factor_table Size 3) = _
    unfold get_factor_table
    congr 2
    unfold markedFlags
    exact List.map_congr_left fun i _ => (markedb_three i).symm
  | (f + 4), hodd, _ => by
    have ih := noskip_eq Size (f + 2) (by omega) (by omega)
    rw [noskip_step Size f _ ih, merge_marked Size f hodd]

theorem merged_even_none (Size : ℕ) : ∀ f, f % 2 = 0 → merged_factor_table Size f = none
  | 0, _ => rfl
  | 1, h => by omega
  | 2, _ => rfl
  | 3, h => by omega
  | (f + 4), h => by
    rw [merged_factor_table, merged_even_none Size (f + 2) (by omega)]

theorem noskip_even_none (Size : ℕ) : ∀ f, f % 2 = 0 → merged_factor_table_noskip Size f = none
  | 0, _ => rfl
  | 1, h => by omega
  | 2, _ => rfl
  | 3, h => by omega
  | (f + 4), h => by
    rw [merged_factor_table_noskip, noskip_even_none Size (f + 2) (by omega)]

theorem merged_none (Size f : ℕ) (h : f % 2 = 0 ∨ f < 3) : merged_factor_table Size f = none := by
  rcases h with h | h
  · exact merged_even_none Size f h
  · interval_cases f <;> rfl

theorem noskip_none (Size f : ℕ) (h : f % 2 = 0 ∨ f < 3) :
    merged_factor_table_noskip Size f = none := by
  rcases h with h | h
  · exact noskip_even_none Size f h
  · interval_cases f <;> rfl

/-! ## Arithmetic bridge to primality -/

theorem odd_has_factor_iff (N n : ℕ) (hodd : n % 2 = 1) (h3 : 3 ≤ n) (hn : n ≤ N) :
    (∃ g, g ≤ N ∧ g % 2 = 1 ∧ 3 ≤ g ∧ n % g = 0 ∧ g < n) ↔ ¬ Nat.Prime n := by
  constructor
  · rintro ⟨g, hgN, hgodd, hg3, hmod, hlt⟩ hp
    have hdvd : g ∣ n := Nat.dvd_of_mod_eq_zero hmod
    rcases hp.eq_one_or_self_of_dvd g hdvd with h | h <;> omega
  · intro hp
    obtain ⟨m, hdvd, hm2, hmlt⟩ := Nat.exists_dvd_of_not_prime2 (by omega) hp
    have hmodd : m % 2 = 1 := by
      rcases Nat.mod_two_eq_zero_or_one m with h | h
      · exfalso
        have h2n : (2 : ℕ) ∣ n := (Nat.dvd_of_mod_eq_zero h).trans hdvd
        rw [Nat.dvd_iff_mod_eq_zero] at h2n
        omega
      · exact h
    exact ⟨m, by omega, hmodd, by omega, (Nat.dvd_iff_mod_eq_zero).1 hdvd, hmlt⟩

/-! ## Unfolding the oracle -/

theorem check_eq_some (N n : ℕ) (hN : N % 2 = 1) (h3 : 3 ≤ N) :
    check N n =
      (if n = 0 ∨ n = 1 then some false
       else if n = 2 then some true
       else if n % 2 = 0 then some false
       else ((bit_array.ofFlags (N / 2) (markedFlags (N / 2) N)).get (to_index n)).map
              (fun b => !b)) := by
  rw [check, merged_eq (N / 2) N hN h3]

theorem check_eq_prime (N n : ℕ) (hN : N % 2 = 1) (h3 : 3 ≤ N) (hn : n ≤ N) :
    check N n = some (decide (Nat.Prime n)) := by
  rw [check_eq_some N n hN h3]
  by_cases h0 : n = 0 ∨ n = 1
  · rw [if_pos h0]
    rcases h0 with rfl | rfl <;> norm_num
  · rw [if_neg h0]
    by_cases h2 : n = 2
    · subst h2
      rw [if_pos rfl]
      norm_num [Nat.prime_two]
    · rw [if_neg h2]
      by_cases he : n % 2 = 0
      · rw [if_pos he]
        have hnp : ¬ Nat.Prime n := by
          intro hp
          have h2d : (2 : ℕ) ∣ n := Nat.dvd_of_mod_eq_zero he
          rcases hp.eq_one_or_self_of_dvd 2 h2d with h | h <;> omega
        simp [hnp]
      · rw [if_neg he]
        have hodd : n % 2 = 1 := by omega
        have h3n : 3 ≤ n := by omega
        have hidx : to_index n < N / 2 := by
          unfold to_index
          omega
        rw [ofFlags_get_lt _ _ _ hidx (by rw [markedFlags_length]; exact hidx),
          markedFlags_getD _ _ _ hidx, Option.map_some']
        have key : markedb N (to_index n) = true ↔ ¬ Nat.Prime n := by
          rw [markedb_iff]
          constructor
          · rintro ⟨g, hgN, hgodd, hg3, hmod, hlt⟩
            rw [to_number_to_index hodd h3n] at hmod hlt
            exact (odd_has_factor_iff N n hodd h3n hn).1 ⟨g, hgN, hgodd, hg3, hmod, hlt⟩
          · intro hp
            obtain ⟨g, hgN, hgodd, hg3, hmod, hlt⟩ :=
              (odd_has_factor_iff N n hodd h3n hn).2 hp
            refine ⟨g, hgN, hgodd, hg3, ?_, ?_⟩ <;>
              rw [to_number_to_index hodd h3n] <;> assumption
        cases hm : markedb N (to_index n)
        · have hp : Nat.Prime n := by
            by_contra hq
            rw [key.2 hq] at hm
            cases hm
          simp [hp]
        · have hp := key.1 hm
          simp [hp]

theorem check_above_bound (N n : ℕ) (hN : N % 2 = 1) (h3 : 3 ≤ N) (hlt : N < n)
    (hodd : n % 2 = 1) :
    check N n = if to_index n < CHAR_BIT * bytesFor (N / 2) then some true else none := by
  rw [check_eq_some N n hN h3, if_neg (by omega), if_neg (by omega), if_neg (by omega)]
  have hidx : N / 2 ≤ to_index n := by
    unfold to_index
    omega
  by_cases h : to_index n < CHAR_BIT * bytesFor (N / 2)
  · rw [if_pos h,
      ofFlags_get_padding _ _ _ (by rw [markedFlags_length]; exact hidx)
        (by unfold index_to_byte CHAR_BIT at *; omega),
      Option.map_some', Bool.not_false]
  · rw [if_neg h,
      ofFlags_get_none _ _ _ (by unfold index_to_byte CHAR_BIT at *; omega),
      Option.map_none']

theorem check_below_three (N n : ℕ) (h : N < 3) :
    check N n = none ∧ merged_factor_table (N / 2) N = none := by
  have hm : merged_factor_table (N / 2) N = none := merged_none (N / 2) N (Or.inr h)
  refine ⟨?_, hm⟩
  rw [check, hm]

/-! ## Claim theorems -/

/-- Claim C1: for a table built for bound `N` (buildable exactly for odd
`N ≥ 3`) and every `n ≤ N`, the oracle `check N n` answers `true` iff `n`
is prime; in particular at bound 1001 the set of `n` with
`is_prime n = some true` is exactly the set of primes `≤ 1001` (the
output of a classical sieve of Eratosthenes over `0..1001`), and
`is_prime` answers `true` at 3, 5, 7 and 29. -/
theorem check_matches_primes :
    (∀ N n, Odd N → 3 ≤ N → n ≤ N → (check N n = some true ↔ Nat.Prime n)) ∧
    (∀ n, n ≤ 1001 → (is_prime n = some true ↔ Nat.Prime n)) ∧
    (is_prime 3 = some true ∧ is_prime 5 = some true ∧ is_prime 7 = some true ∧
      is_prime 29 = some true) := by
  have main : ∀ N n, N % 2 = 1 → 3 ≤ N → n ≤ N → (check N n = some true ↔ Nat.Prime n) := by
    intro N n hN h3 hn
    rw [check_eq_prime N n hN h3 hn]
    constructor
    · intro h
      exact of_decide_eq_true (Option.some.inj h)
    · intro h
      rw [decide_eq_true h]
  refine ⟨fun N n hN h3 hn => main N n (Nat.odd_iff.1 hN) h3 hn,
    fun n hn => main 1001 n (by norm_num) (by norm_num) hn, ?_, ?_, ?_, ?_⟩
  · exact (main 1001 3 (by norm_num) (by norm_num) (by norm_num)).2 (by norm_num)
  · exact (main 1001 5 (by norm_num) (by norm_num) (by norm_num)).2 (by norm_num)
  · exact (main 1001 7 (by norm_num) (by norm_num) (by norm_num)).2 (by norm_num)
  · exact (main 1001 29 (by norm_num) (by norm_num) (by norm_num)).2 (by norm_num)

/-- Witness for C1 at `N = 1001`, `n = 29`. -/
theorem check_matches_primes_witness :
    (Odd 1001 ∧ 3 ≤ 1001 ∧ 29 ≤ 1001) ∧ (check 1001 29 = some true ↔ Nat.Prime 29) :=
  ⟨⟨by decide, by norm_num, by norm_num⟩,
    check_matches_primes.1 1001 29 (by decide) (by norm_num) (by norm_num)⟩

/-- Claim C2: the oracle decides in the short-circuit order of the source
(`0 ↦ false`, `1 ↦ false`, `2 ↦ true`, even `n > 2 ↦ false`, otherwise
the negated table bit at `to_index n`), and the boundary values hold:
`is_prime` answers `false` at 0, 1 and 4 and `true` at 2. -/
theorem check_decision_order :
    is_prime 0 = some false ∧ is_prime 1 = some false ∧ is_prime 2 = some true ∧
    (∀ n, n % 2 = 0 → 2 < n → is_prime n = some false) ∧
    (∀ n, n % 2 = 1 → 3 ≤ n → ∃ composites,
      merged_factor_table (1001 / 2) 1001 = some composites ∧
      is_prime n = (composites.get (to_index n)).map (fun b => !b)) ∧
    is_prime 4 = some false := by
  have h0 : ∀ n, check 1001 n =
      (if n = 0 ∨ n = 1 then some false
       else if n = 2 then some true
       else if n % 2 = 0 then some false
       else ((bit_array.ofFlags (1001 / 2) (markedFlags (1001 / 2) 1001)).get (to_index n)).map
              (fun b => !b)) :=
    fun n => check_eq_some 1001 n (by norm_num) (by norm_num)
  refine ⟨?_, ?_, ?_, ?_, ?_, ?_⟩
  · rw [is_prime, h0 0]
    norm_num
  · rw [is_prime, h0 1]
    norm_num
  · rw [is_prime, h0 2]
    norm_num
  · intro n he hgt
    rw [is_prime, h0 n, if_neg (by omega), if_neg (by omega), if_pos he]
  · intro n ho h3
    refine ⟨bit_array.ofFlags (1001 / 2) (markedFlags (1001 / 2) 1001),
      merged_eq (1001 / 2) 1001 (by norm_num) (by norm_num), ?_⟩
    rw [is_prime, h0 n, if_neg (by omega), if_neg (by omega), if_neg (by omega)]
  · rw [is_prime, h0 4]
    norm_num

/-- Witness for C2 at the odd query `n = 9`. -/
theorem check_decision_order_witness :
    (9 % 2 = 1 ∧ 3 ≤ 9) ∧ ∃ composites,
      merged_factor_table (1001 / 2) 1001 = some composites ∧
      is_prime 9 = (composites.get (to_index 9)).map (fun b => !b) :=
  ⟨⟨by norm_num, by norm_num⟩, check_decision_order.2.2.2.2.1 9 (by norm_num) (by norm_num)⟩

/-- Claim C3: for every bound `N`, building the sieve with the
skip-known-composite-factors step produces a table bit-identical to
building it with that step disabled; the skip never changes the output
(and for bounds where the recursion fails, both fail alike). -/
theorem merged_skip_eq_noskip :
    ∀ N, merged_factor_table (N / 2) N = merged_factor_table_noskip (N / 2) N := by
  intro N
  rcases Nat.mod_two_eq_zero_or_one N with h | h
  · rw [merged_none _ _ (Or.inl h), noskip_none _ _ (Or.inl h)]
  · rcases Nat.lt_or_ge N 3 with h3 | h3
    · rw [merged_none _ _ (Or.inr h3), noskip_none _ _ (Or.inr h3)]
    · rw [merged_eq _ _ h h3, noskip_eq _ _ h h3]

/-- Claim C4: the index maps are mutually inverse: `to_index ∘ to_number`
is the identity on all indices, and `to_number ∘ to_index` is the
identity on odd numbers `≥ 3`. -/
theorem index_maps_inverse :
    (∀ i, to_index (to_number i) = i) ∧ (∀ n, Odd n → 3 ≤ n → to_number (to_index n) = n) := by
  refine ⟨to_index_to_number, fun n hodd h3 => to_number_to_index (Nat.odd_iff.1 hodd) h3⟩

/-- Witness for C4 at `i = 17` and `n = 29`. -/
theorem index_maps_inverse_witness :
    (Odd 29 ∧ 3 ≤ 29) ∧ (to_index (to_number 17) = 17 ∧ to_number (to_index 29) = 29) :=
  ⟨⟨by decide, by norm_num⟩,
    index_maps_inverse.1 17, index_maps_inverse.2 29 (by decide) (by norm_num)⟩

/-- Claim C5: the bulk OR-merge is commutative for all tables, and
idempotent on every table of capacity `Size` (i.e. every value the
program can construct: an image of the flag-list constructor with a
full-length flag list). -/
theorem merge_or_comm_idem :
    (∀ Size A B, merge_factors Size A B = merge_factors Size B A) ∧
    (∀ Size flags, flags.length = Size →
      merge_factors Size (bit_array.ofFlags Size flags) (bit_array.ofFlags Size flags) =
        bit_array.ofFlags Size flags) := by
  constructor
  · intro Size A B
    unfold merge_factors
    congr 1
    exact List.map_congr_left fun i _ => Bool.or_comm _ _
  · intro Size flags hlen
    unfold merge_factors
    congr 1
    apply List.ext_getElem
    · simpa using hlen.symm
    · intro i h1 h2
      rw [List.getElem_map, List.getElem_range, Bool.or_self]
      have hi : i < Size := by simpa using h1
      rw [ofFlags_get_lt Size flags i hi (by omega), Option.getD_some,
        List.getD_eq_getElem flags false (by omega)]

/-- Witness for C5 idempotence at a concrete three-bit table. -/
theorem merge_or_comm_idem_witness :
    ([true, false, true].length = 3) ∧
      merge_factors 3 (bit_array.ofFlags 3 [true, false, true])
          (bit_array.ofFlags 3 [true, false, true])
        = bit_array.ofFlags 3 [true, false, true] :=
  ⟨rfl, merge_or_comm_idem.2 3 [true, false, true] rfl⟩

/-- Counterexample to claim C6 as stated: on a table of capacity 5, the
out-of-range read at index 7 does not fail — it returns the value
`false` (a padding bit of the last storage byte), because `operator[]`
performs no bounds check. -/
theorem get_out_of_range_returns_value :
    5 ≤ 7 ∧ (bit_array.ofFlags 5 [true, true, true, true, true]).get 7 = some false := by
  exact ⟨by norm_num, by decide⟩

/-- Claim C6 amended: table reads are not bounds-checked.  For every
index at or beyond the capacity, `get` returns the (always clear)
padding bit `false` while the index still lands inside the backing
bytes, and only fails (undefined behaviour in C++, `none` here) once
the byte index leaves the storage. -/
theorem get_no_bounds_check :
    ∀ Size flags index, flags.length = Size → Size ≤ index →
      (bit_array.ofFlags Size flags).get index =
        if index < CHAR_BIT * bytesFor Size then some false else none := by
  intro Size flags index hlen hge
  by_cases h : index < CHAR_BIT * bytesFor Size
  · rw [if_pos h]
    exact ofFlags_get_padding Size flags index (by omega)
      (by unfold index_to_byte CHAR_BIT at *; omega)
  · rw [if_neg h]
    exact ofFlags_get_none Size flags index (by unfold index_to_byte CHAR_BIT at *; omega)

/-- Witness for the amended C6 at capacity 5, index 7. -/
theorem get_no_bounds_check_witness :
    ([true, true, true, true, true].length = 5 ∧ 5 ≤ 7) ∧
      (bit_array.ofFlags 5 [true, true, true, true, true]).get 7 =
        if 7 < CHAR_BIT * bytesFor 5 then some false else none :=
  ⟨⟨rfl, by norm_num⟩, get_no_bounds_check 5 [true, true, true, true, true] 7 rfl (by norm_num)⟩

/-- Counterexample to claim C7 as stated: the oracle built for bound 71
answers the query 73 > 71 with the boolean `some true` (computed from a
clear padding bit the table has no data for) instead of surfacing any
error. -/
theorem query_beyond_bound_returns_value : 71 < 73 ∧ check 71 73 = some true := by
  refine ⟨by norm_num, ?_⟩
  rw [check_above_bound 71 73 (by norm_num) (by norm_num) (by norm_num) (by norm_num)]
  norm_num [to_index, bytesFor, CHAR_BIT]

/-- Claim C7 amended: there is no `QueryOutOfBound` error in the code.
For an odd query `n` beyond the bound `N`, the oracle silently returns
`true` (the negation of a clear padding bit) as long as `to_index n`
still lands inside the backing bytes, and otherwise performs an
out-of-bounds read (undefined behaviour in C++, `none` here). -/
theorem query_beyond_bound_behavior :
    ∀ N n, N % 2 = 1 → 3 ≤ N → N < n → n % 2 = 1 →
      check N n = if to_index n < CHAR_BIT * bytesFor (N / 2) then some true else none :=
  check_above_bound

/-- Witness for the amended C7 at bound 1001, query 1003. -/
theorem query_beyond_bound_behavior_witness :
    (1001 % 2 = 1 ∧ 3 ≤ 1001 ∧ 1001 < 1003 ∧ 1003 % 2 = 1) ∧
      check 1001 1003 =
        if to_index 1003 < CHAR_BIT * bytesFor (1001 / 2) then some true else none :=
  ⟨⟨by norm_num, by norm_num, by norm_num, by norm_num⟩,
    query_beyond_bound_behavior 1001 1003 (by norm_num) (by norm_num) (by norm_num) (by norm_num)⟩

/-- Counterexample to claim C8 as stated: for the bound 2 < 3 the
builder does not return a trivial/empty table through a defined branch —
the factor recursion never reaches its base case, so construction (and
with it every query) fails. -/
theorem bound_below_three_counterexample :
    2 < 3 ∧ check 2 0 = none ∧ merged_factor_table (2 / 2) 2 = none := by
  refine ⟨by norm_num, ?_, ?_⟩ <;> rfl

/-- Claim C8 amended: for every bound `N < 3` the factor recursion never
reaches its base case at factor 3 (the template instantiation does not
terminate), so no table is constructed and every query fails. -/
theorem bound_below_three_fails :
    ∀ N n, N < 3 → check N n = none ∧ merged_factor_table (N / 2) N = none :=
  fun N n h => check_below_three N n h

/-- Witness for the amended C8 at bound 2, query 7. -/
theorem bound_below_three_fails_witness :
    2 < 3 ∧ (check 2 7 = none ∧ merged_factor_table (2 / 2) 2 = none) :=
  ⟨by norm_num, bound_below_three_fails 2 7 (by norm_num)⟩

/-- Claim C9: soundness invariant of construction — at every stage `f`
of the factor recursion, every index `i` whose accumulator bit is true
has `to_number i` a strict multiple of some smaller odd factor
`g ≤ f`, hence composite; no prime number's bit is ever set. -/
theorem builder_soundness_invariant :
    ∀ Size f A i, merged_factor_table Size f = some A → i < Size → A.get i = some true →
      (∃ g, g % 2 = 1 ∧ 3 ≤ g ∧ g ≤ f ∧ g ∣ to_number i ∧ g < to_number i) ∧
        ¬ (to_number i).Prime := by
  intro Size f A i hA hi hbit
  have hf : f % 2 = 1 ∧ 3 ≤ f := by
    rcases Nat.mod_two_eq_zero_or_one f with h | h
    · rw [merged_none Size f (Or.inl h)] at hA
      cases hA
    · refine ⟨h, ?_⟩
      by_contra h3
      rw [merged_none Size f (Or.inr (by omega))] at hA
      cases hA
  rw [merged_eq Size f hf.1 hf.2] at hA
  obtain rfl : A = bit_array.ofFlags Size (markedFlags Size f) := (Option.some.inj hA).symm
  rw [ofFlags_get_lt _ _ _ hi (by rw [markedFlags_length]; exact hi),
    markedFlags_getD _ _ _ hi] at hbit
  have hmk := Option.some.inj hbit
  obtain ⟨g, hgle, hgodd, hg3, hmod, hlt⟩ := (markedb_iff f i).1 hmk
  have hgd : g ∣ to_number i := Nat.dvd_of_mod_eq_zero hmod
  refine ⟨⟨g, hgodd, hg3, hgle, hgd, hlt⟩, ?_⟩
  intro hp
  rcases hp.eq_one_or_self_of_dvd g hgd with h | h <;> omega

/-- Witness for C9: at stage `f = 3` with `Size = 4` the bit of index 3
(the number 9) is set, and 9 is indeed a strict multiple of 3. -/
theorem builder_soundness_invariant_witness :
    (merged_factor_table 4 3 = some (bit_array.ofFlags 4 [false, false, false, true]) ∧
      (3 : ℕ) < 4 ∧ (bit_array.ofFlags 4 [false, false, false, true]).get 3 = some true) ∧
      ((∃ g, g % 2 = 1 ∧ 3 ≤ g ∧ g ≤ 3 ∧ g ∣ to_number 3 ∧ g < to_number 3) ∧
        ¬ (to_number 3).Prime) :=
  ⟨⟨by decide, by norm_num, by decide⟩,
    builder_soundness_invariant 4 3 (bit_array.ofFlags 4 [false, false, false, true]) 3
      (by decide) (by norm_num) (by decide)⟩

/-- Claim C10: the factor recursion of the builder reaches its base case
at factor 3 — and hence terminates with a table — precisely when the
starting factor is an odd number at least 3. -/
theorem factor_recursion_terminates :
    ∀ Size f, (merged_factor_table Size f).isSome = true ↔ (Odd f ∧ 3 ≤ f) := by
  intro Size f
  constructor
  · intro h
    rcases Nat.mod_two_eq_zero_or_one f with he | ho
    · rw [merged_none Size f (Or.inl he)] at h
      simp at h
    · refine ⟨Nat.odd_iff.2 ho, ?_⟩
      by_contra h3
      rw [merged_none Size f (Or.inr (by omega))] at h
      simp at h
  · rintro ⟨hodd, h3⟩
    rw [merged_eq Size f (Nat.odd_iff.1 hodd) h3]
    rfl
